import Mathlib

/-!
# Verification of the ANSI styling core of `bevy-console-molot`

This file shallowly embeds the algorithmic core of the repository:

* `src/color.rs` — the colour palette (`ansi_color_code_to_color32`),
  the SGR graphics-mode decoder (`parse_graphics_mode`) and the escape
  scanner (`parse_ansi_styled_str`);
* `src/console.rs` — the style-run compositor (`style_ansi_text` with
  its helpers `default_style` and the inline override-application match);
* `src/rustyline.rs` — the command tokenizer (`str_to_command`).

Rust strings are modelled as `List Char`; byte offsets become character
offsets (the scanner and the compositor use the same unit, so all offset
bookkeeping is preserved).  Rust `HashSet` values are modelled as
`Finset`; where the source iterates a `HashSet` in unspecified order
(the override-application loop of `style_ansi_text`), the model takes an
explicit enumeration (`List`) of the set so that order-(in)dependence
can be stated and settled.  The external `ansi_parser` lexer is modelled
by its output: a stream of text blocks and escape tokens
(`AnsiElement`); the external `strip_ansi_escapes::strip_str` pass is
modelled as the concatenation of the text blocks of that same stream.
-/

/-- `Colour` from `src/color.rs`: an exact 8-bit RGB triple.
Components are `Nat` carrying byte values. -/
structure Colour where
  r : Nat
  g : Nat
  b : Nat
deriving DecidableEq, Repr

namespace Colour

/-- `Colour::from_rgb` from `src/color.rs`. -/
def from_rgb (r g b : Nat) : Colour := ⟨r, g, b⟩

end Colour

/-- `TextFormattingOverride` from `src/color.rs`. -/
inductive TextFormattingOverride where
  | Reset
  | Bold
  | Dim
  | Italic
  | Underline
  | Strikethrough
  | Foreground (c : Colour)
  | Background (c : Colour)
deriving DecidableEq, Repr

/-- `ansi_color_code_to_color32` from `src/color.rs`: the fixed
16-colour palette.  The Rust `match` on the `u8` literals `1..=15` with
a catch-all arm is rendered as the corresponding chain of equality
tests; every index not matched by `1..=15` (including `0`) falls to the
`(1, 1, 1)` arm. -/
def ansi_color_code_to_color32 (color_code : Nat) : Colour :=
  if color_code = 1 then Colour.from_rgb 222 56 43        -- red
  else if color_code = 2 then Colour.from_rgb 57 181 74   -- green
  else if color_code = 3 then Colour.from_rgb 255 199 6   -- yellow
  else if color_code = 4 then Colour.from_rgb 0 111 184   -- blue
  else if color_code = 5 then Colour.from_rgb 118 38 113  -- magenta
  else if color_code = 6 then Colour.from_rgb 44 181 233  -- cyan
  else if color_code = 7 then Colour.from_rgb 204 204 204 -- white
  else if color_code = 8 then Colour.from_rgb 128 128 128 -- bright black
  else if color_code = 9 then Colour.from_rgb 255 0 0     -- bright red
  else if color_code = 10 then Colour.from_rgb 0 255 0    -- bright green
  else if color_code = 11 then Colour.from_rgb 255 255 0  -- bright yellow
  else if color_code = 12 then Colour.from_rgb 0 0 255    -- bright blue
  else if color_code = 13 then Colour.from_rgb 255 0 255  -- bright magenta
  else if color_code = 14 then Colour.from_rgb 0 255 255  -- bright cyan
  else if color_code = 15 then Colour.from_rgb 255 255 255 -- bright white
  else Colour.from_rgb 1 1 1                              -- black

/-- The sixteen palette entries in index order, for stating totality of
the palette lookup over indices `0–15`. -/
def palette16 : List Colour :=
  [Colour.from_rgb 1 1 1, Colour.from_rgb 222 56 43, Colour.from_rgb 57 181 74,
   Colour.from_rgb 255 199 6, Colour.from_rgb 0 111 184, Colour.from_rgb 118 38 113,
   Colour.from_rgb 44 181 233, Colour.from_rgb 204 204 204, Colour.from_rgb 128 128 128,
   Colour.from_rgb 255 0 0, Colour.from_rgb 0 255 0, Colour.from_rgb 255 255 0,
   Colour.from_rgb 0 0 255, Colour.from_rgb 255 0 255, Colour.from_rgb 0 255 255,
   Colour.from_rgb 255 255 255]

/-- The per-parameter `match` inside `parse_graphics_mode`
(`src/color.rs`).  SGR parameters are `u8` values, modelled as `Nat`;
`mode - 30` and `mode - 40` are exact on the matched ranges. -/
def sgr_override (mode : Nat) : TextFormattingOverride :=
  if mode = 0 then .Reset
  else if mode = 1 then .Bold
  else if mode = 2 then .Dim
  else if mode = 3 then .Italic
  else if mode = 4 then .Underline
  else if mode = 9 then .Strikethrough
  else if 30 ≤ mode ∧ mode ≤ 37 then .Foreground (ansi_color_code_to_color32 (mode - 30))
  else if 40 ≤ mode ∧ mode ≤ 47 then .Background (ansi_color_code_to_color32 (mode - 40))
  else .Reset

/-- `parse_graphics_mode` from `src/color.rs`: fold every parameter's
decoded override into a `HashSet`, modelled as a `Finset`. -/
def parse_graphics_mode (modes : List Nat) : Finset TextFormattingOverride :=
  modes.foldl (fun results mode => insert (sgr_override mode) results) ∅

/-- The `ansi_parser::AnsiSequence` escapes as consumed by
`parse_ansi_styled_str` (`src/color.rs`): only `SetGraphicsMode` is
inspected, every other escape kind is ignored, so all other variants
are collapsed into `other`. -/
inductive AnsiSequence where
  | SetGraphicsMode (modes : List Nat)
  | other
deriving DecidableEq, Repr

/-- One element of the `ansi_parse` stream (`ansi_parser::Output`):
either a literal text block or an escape token. -/
inductive AnsiElement where
  | TextBlock (t : List Char)
  | Escape (e : AnsiSequence)
deriving DecidableEq, Repr

/-- The external `strip_ansi_escapes::strip_str` pass, modelled on the
lexed stream: the plain-text view is the concatenation of the text
blocks (escapes are stripped). -/
def strip_ansi : List AnsiElement → List Char
  | [] => []
  | .TextBlock t :: els => t ++ strip_ansi els
  | .Escape _ :: els => strip_ansi els

/-- The merge-on-collision step of `parse_ansi_styled_str`
(`src/color.rs`): inspect the most recent entry (`result.last_mut()`);
if its offset equals the current offset, union the new overrides into
it (`last.extend(modes)`), otherwise append a new entry.  The
accumulator is kept in reverse order (most recent entry first), the
functional rendering of push-at-back / inspect-back. -/
def merge_entry (acc : List (Nat × Finset TextFormattingOverride)) (offset : Nat)
    (modes : Finset TextFormattingOverride) : List (Nat × Finset TextFormattingOverride) :=
  match acc with
  | (last_offset, last) :: rest =>
      if last_offset = offset then (last_offset, last ∪ modes) :: rest
      else (offset, modes) :: (last_offset, last) :: rest
  | [] => [(offset, modes)]

/-- The scanning loop of `parse_ansi_styled_str` (`src/color.rs`):
a text block advances the running plain-text offset by its length; a
`SetGraphicsMode` escape decodes its parameters and merges or appends
an entry; every other escape is skipped.  Returns the reversed
accumulator. -/
def scan_loop : List AnsiElement → List (Nat × Finset TextFormattingOverride) → Nat →
    List (Nat × Finset TextFormattingOverride)
  | [], acc, _ => acc
  | .TextBlock t :: els, acc, offset => scan_loop els acc (offset + t.length)
  | .Escape (.SetGraphicsMode modes) :: els, acc, offset =>
      scan_loop els (merge_entry acc offset (parse_graphics_mode modes)) offset
  | .Escape .other :: els, acc, offset => scan_loop els acc offset

/-- `parse_ansi_styled_str` from `src/color.rs`, over the lexed element
stream of the input string. -/
def parse_ansi_styled_str (src : List AnsiElement) : List (Nat × Finset TextFormattingOverride) :=
  (scan_loop src [] 0).reverse

/-- The fields of `ConsoleConfiguration` (`src/console.rs`) that the
styling core reads: only `foreground_color`. -/
structure ConsoleConfiguration where
  foreground_color : Colour
deriving DecidableEq, Repr

/-- The `egui::TextFormat` fields touched by `style_ansi_text`
(`src/console.rs`): font size (`f32` values `14`/`16`/`12`, exact small
integers, modelled as `Nat`), italics flag, underline and
strikethrough strokes (width–colour pairs, `none` for
`Stroke::NONE`), foreground colour, and background colour (`none` for
`Color32::TRANSPARENT`). -/
structure StyleState where
  font_size : Nat
  italics : Bool
  underline : Option (Nat × Colour)
  strikethrough : Option (Nat × Colour)
  color : Colour
  background : Option Colour
deriving DecidableEq, Repr

/-- `default_style` from `src/console.rs`:
`TextFormat::simple(FontId::monospace(14.), config.foreground_color)` —
size 14, the configured foreground colour, all other fields at their
`TextFormat` defaults. -/
def default_style (config : ConsoleConfiguration) : StyleState :=
  { font_size := 14, italics := false, underline := none, strikethrough := none,
    color := config.foreground_color, background := none }

/-- The `match o` arms of the override-application loop in
`style_ansi_text` (`src/console.rs`).  The `_ => {}` catch-all covers
exactly `Reset`, which is a no-op here (it was handled by the
`contains` check before the loop). -/
def apply_override (config : ConsoleConfiguration) (s : StyleState) :
    TextFormattingOverride → StyleState
  | .Bold => { s with font_size := 16 }
  | .Dim => { s with font_size := 12 }
  | .Italic => { s with italics := true }
  | .Underline => { s with underline := some (1, config.foreground_color) }
  | .Strikethrough => { s with strikethrough := some (1, config.foreground_color) }
  | .Foreground c => { s with color := c }
  | .Background c => { s with background := some c }
  | .Reset => s

/-- The per-entry style update of `style_ansi_text` (`src/console.rs`):
if the entry's override set contains `Reset`, reset `current_style` to
the base style, then apply every override of the entry in the order the
`HashSet` iterator happens to produce (`order` is that enumeration). -/
def apply_entry (config : ConsoleConfiguration) (style : StyleState)
    (order : List TextFormattingOverride) : StyleState :=
  (if TextFormattingOverride.Reset ∈ order then default_style config else style)
    |> fun s => order.foldl (apply_override config) s

/-- `StyledRun`: one `layout_job.append(text, 0., current_style)` of
`style_ansi_text` — a text slice with the style in effect at its
start. -/
structure StyledRun where
  text : List Char
  format : StyleState
deriving DecidableEq, Repr

/-- The main loop of `style_ansi_text` (`src/console.rs`): for each
entry, slice `str_without_ansi[last_offset..offset]`, emit it (when
non-empty) under the current style, then update the style with the
entry's overrides and advance `last_offset`. -/
def composite_loop (config : ConsoleConfiguration) (plain : List Char) :
    List (Nat × List TextFormattingOverride) → StyleState → Nat → List StyledRun
  | [], _, _ => []
  | (offset, order) :: rest, style, last_offset =>
      let text := (plain.drop last_offset).take (offset - last_offset)
      let tail := composite_loop config plain rest (apply_entry config style order) offset
      if text.isEmpty then tail else ⟨text, style⟩ :: tail

/-- `style_ansi_text` from `src/console.rs`, decomposed over its three
ingredients: the stripped plain text, the parse entries — each with the
explicit enumeration order its `HashSet` iterator produced — and the
configuration.  The synthetic terminal entry
`(str_without_ansi.len(), Default::default())` is chained on, and the
fold starts from `default_style(config)` at offset 0. -/
def style_ansi_text (config : ConsoleConfiguration) (plain : List Char)
    (entries : List (Nat × List TextFormattingOverride)) : List StyledRun :=
  composite_loop config plain (entries ++ [(plain.length, [])]) (default_style config) 0

/-- `ConsoleCommandEntered` from `src/console.rs`: a command name and
its raw argument list. -/
structure ConsoleCommandEntered where
  command_name : List Char
  args : List (List Char)
deriving DecidableEq, Repr

/-- Rust `char::is_whitespace`, restricted to the ASCII whitespace that
the model's `List Char` strings use; Unicode whitespace code points
beyond these behave identically (any decidable whitespace predicate
works uniformly in what follows). -/
def isWs (c : Char) : Bool := c = ' ' ∨ c = '\t' ∨ c = '\n' ∨ c = '\r'

/-- Single pass of Rust `str::split_whitespace`: walk the characters
keeping the (reversed) current token; whitespace closes the current
token, non-whitespace extends it.  Empty tokens are never emitted. -/
def split_ws_go : List Char → List Char → List (List Char)
  | [], cur => if cur = [] then [] else [cur.reverse]
  | c :: cs, cur =>
      if isWs c then
        if cur = [] then split_ws_go cs [] else cur.reverse :: split_ws_go cs []
      else split_ws_go cs (c :: cur)

/-- Rust `str::split_whitespace`: the maximal non-whitespace runs of
the string, in order, with no empty tokens. -/
def split_whitespace (s : List Char) : List (List Char) := split_ws_go s []

/-- `str_to_command` from `src/rustyline.rs`: the first
whitespace-delimited token becomes the command name (`iter.next()?`),
the remaining tokens the arguments; a line with no token yields
`None`. -/
def str_to_command (s : List Char) : Option ConsoleCommandEntered :=
  match split_whitespace s with
  | [] => none
  | command_name :: args => some ⟨command_name, args⟩

/-- A sample configuration (the repository's default foreground colour)
for closed instances of the theorems below. -/
def sample_config : ConsoleConfiguration := ⟨Colour.from_rgb 220 220 220⟩

/-- Folding parameters into the accumulated override set equals the
accumulator unioned with the image of the decoder over the
parameters. -/
lemma parse_graphics_mode_foldl (modes : List Nat) :
    ∀ acc : Finset TextFormattingOverride,
      modes.foldl (fun results mode => insert (sgr_override mode) results) acc
        = acc ∪ (modes.map sgr_override).toFinset := by
  induction modes with
  | nil => intro acc; simp
  | cons m ms ih =>
      intro acc
      simp only [List.foldl_cons, ih, List.map_cons, List.toFinset_cons,
        Finset.insert_union, Finset.union_insert]

/-- C7: The palette lookup is total and never fails: every index in
`0–15` returns its fixed RGB triple (listed in `palette16`), and every
index outside `0–15` returns the fallback colour `(1, 1, 1)`. -/
theorem palette_total_with_fallback (i : Nat) :
    ansi_color_code_to_color32 i =
      if h : i < 16 then palette16.get ⟨i, h⟩ else Colour.from_rgb 1 1 1 := by
  rcases Nat.lt_or_ge i 16 with h | h
  · rw [dif_pos h]
    interval_cases i <;> rfl
  · rw [dif_neg (by omega)]
    unfold ansi_color_code_to_color32
    rw [if_neg (show ¬ i = 1 by omega), if_neg (show ¬ i = 2 by omega),
      if_neg (show ¬ i = 3 by omega), if_neg (show ¬ i = 4 by omega),
      if_neg (show ¬ i = 5 by omega), if_neg (show ¬ i = 6 by omega),
      if_neg (show ¬ i = 7 by omega), if_neg (show ¬ i = 8 by omega),
      if_neg (show ¬ i = 9 by omega), if_neg (show ¬ i = 10 by omega),
      if_neg (show ¬ i = 11 by omega), if_neg (show ¬ i = 12 by omega),
      if_neg (show ¬ i = 13 by omega), if_neg (show ¬ i = 14 by omega),
      if_neg (show ¬ i = 15 by omega)]

/-- C9: Palette index 0 (reached by SGR parameters 30 and 40) maps to
the same fallback colour `(1, 1, 1)` as every out-of-range index, not
to `(0, 0, 0)`; decoding the parameter list `[30]` yields exactly
`{Foreground (1, 1, 1)}` (and `[40]` yields
`{Background (1, 1, 1)}`). -/
theorem palette_zero_fallback :
    ansi_color_code_to_color32 0 = Colour.from_rgb 1 1 1 ∧
    ansi_color_code_to_color32 0 ≠ Colour.from_rgb 0 0 0 ∧
    (∀ i : Nat, ansi_color_code_to_color32 (i + 16) = ansi_color_code_to_color32 0) ∧
    parse_graphics_mode [30] = {.Foreground (Colour.from_rgb 1 1 1)} ∧
    parse_graphics_mode [40] = {.Background (Colour.from_rgb 1 1 1)} := by
  refine ⟨rfl, by decide, ?_, by decide, by decide⟩
  intro i
  show ansi_color_code_to_color32 (i + 16) = _
  unfold ansi_color_code_to_color32
  rw [if_neg (show ¬ i + 16 = 1 by omega), if_neg (show ¬ i + 16 = 2 by omega),
    if_neg (show ¬ i + 16 = 3 by omega), if_neg (show ¬ i + 16 = 4 by omega),
    if_neg (show ¬ i + 16 = 5 by omega), if_neg (show ¬ i + 16 = 6 by omega),
    if_neg (show ¬ i + 16 = 7 by omega), if_neg (show ¬ i + 16 = 8 by omega),
    if_neg (show ¬ i + 16 = 9 by omega), if_neg (show ¬ i + 16 = 10 by omega),
    if_neg (show ¬ i + 16 = 11 by omega), if_neg (show ¬ i + 16 = 12 by omega),
    if_neg (show ¬ i + 16 = 13 by omega), if_neg (show ¬ i + 16 = 14 by omega),
    if_neg (show ¬ i + 16 = 15 by omega)]
  rfl

/-- C3: The graphics-mode decoder returns exactly the set of decoded
overrides of the parameters — duplicates are unioned, no parameter is
dropped, and decoding is total — and the per-parameter decoding follows
the SGR table: 0 Reset, 1 Bold, 2 Dim, 3 Italic, 4 Underline,
9 Strikethrough, 30–37 foreground palette colours, 40–47 background
palette colours, anything else Reset. -/
theorem parse_graphics_mode_table (modes : List Nat) :
    parse_graphics_mode modes = (modes.map sgr_override).toFinset ∧
    (∀ m ∈ modes, sgr_override m ∈ parse_graphics_mode modes) ∧
    sgr_override 0 = .Reset ∧ sgr_override 1 = .Bold ∧ sgr_override 2 = .Dim ∧
    sgr_override 3 = .Italic ∧ sgr_override 4 = .Underline ∧
    sgr_override 9 = .Strikethrough ∧
    (∀ m : Nat, 30 ≤ m → m ≤ 37 →
      sgr_override m = .Foreground (ansi_color_code_to_color32 (m - 30))) ∧
    (∀ m : Nat, 40 ≤ m → m ≤ 47 →
      sgr_override m = .Background (ansi_color_code_to_color32 (m - 40))) ∧
    (∀ m : Nat, m ∉ ([0, 1, 2, 3, 4, 9] : List Nat) → ¬ (30 ≤ m ∧ m ≤ 37) →
      ¬ (40 ≤ m ∧ m ≤ 47) → sgr_override m = .Reset) := by
  have hmain : parse_graphics_mode modes = (modes.map sgr_override).toFinset := by
    unfold parse_graphics_mode
    rw [parse_graphics_mode_foldl]
    simp
  refine ⟨hmain, ?_, rfl, rfl, rfl, rfl, rfl, rfl, ?_, ?_, ?_⟩
  · intro m hm
    rw [hmain]
    simp only [List.mem_toFinset, List.mem_map]
    exact ⟨m, hm, rfl⟩
  · intro m h1 h2
    unfold sgr_override
    rw [if_neg (show ¬ m = 0 by omega), if_neg (show ¬ m = 1 by omega),
      if_neg (show ¬ m = 2 by omega), if_neg (show ¬ m = 3 by omega),
      if_neg (show ¬ m = 4 by omega), if_neg (show ¬ m = 9 by omega),
      if_pos ⟨h1, h2⟩]
  · intro m h1 h2
    unfold sgr_override
    rw [if_neg (show ¬ m = 0 by omega), if_neg (show ¬ m = 1 by omega),
      if_neg (show ¬ m = 2 by omega), if_neg (show ¬ m = 3 by omega),
      if_neg (show ¬ m = 4 by omega), if_neg (show ¬ m = 9 by omega),
      if_neg (show ¬ (30 ≤ m ∧ m ≤ 37) by omega), if_pos ⟨h1, h2⟩]
  · intro m hmem h37 h47
    simp only [List.mem_cons, List.not_mem_nil, or_false, not_or] at hmem
    obtain ⟨n0, n1, n2, n3, n4, n9⟩ := hmem
    unfold sgr_override
    rw [if_neg n0, if_neg n1, if_neg n2, if_neg n3, if_neg n4, if_neg n9,
      if_neg h37, if_neg h47]

/-- Closed instance of `parse_graphics_mode_table`: the image equality
at `[1, 31, 1]` and the table rows at 31, 41 and 99. -/
theorem parse_graphics_mode_table_witness :
    parse_graphics_mode [1, 31, 1] = (([1, 31, 1] : List Nat).map sgr_override).toFinset ∧
    sgr_override 31 = .Foreground (ansi_color_code_to_color32 1) ∧
    sgr_override 41 = .Background (ansi_color_code_to_color32 1) ∧
    sgr_override 99 = .Reset :=
  ⟨(parse_graphics_mode_table [1, 31, 1]).1,
   (parse_graphics_mode_table []).2.2.2.2.2.2.2.2.1 31 (by decide) (by decide),
   (parse_graphics_mode_table []).2.2.2.2.2.2.2.2.2.1 41 (by decide) (by decide),
   (parse_graphics_mode_table []).2.2.2.2.2.2.2.2.2.2 99 (by decide) (by decide) (by decide)⟩

/-- Invariant of the scanning loop: if every accumulated offset is at
most the running offset and the (reversed) accumulator's offsets are
strictly decreasing, both properties persist, and every offset in the
final accumulator is bounded by the running offset plus the plain-text
length still to come. -/
lemma scan_loop_invariant :
    ∀ (els : List AnsiElement) (acc : List (Nat × Finset TextFormattingOverride)) (offset : Nat),
      (∀ p ∈ acc, p.1 ≤ offset) →
      List.Pairwise (fun a b => b < a) (acc.map Prod.fst) →
      List.Pairwise (fun a b => b < a) ((scan_loop els acc offset).map Prod.fst) ∧
        ∀ p ∈ scan_loop els acc offset, p.1 ≤ offset + (strip_ansi els).length := by
  intro els
  induction els with
  | nil =>
      intro acc offset hb hs
      refine ⟨hs, ?_⟩
      intro p hp
      simpa [scan_loop, strip_ansi] using hb p hp
  | cons el els ih =>
      intro acc offset hb hs
      cases el with
      | TextBlock t =>
          have hb' : ∀ p ∈ acc, p.1 ≤ offset + t.length := fun p hp =>
            Nat.le_trans (hb p hp) (Nat.le_add_right _ _)
          have h := ih acc (offset + t.length) hb' hs
          refine ⟨h.1, ?_⟩
          intro p hp
          have := h.2 p hp
          simp only [strip_ansi, List.length_append]
          omega
      | Escape e =>
          cases e with
          | SetGraphicsMode modes =>
              set s := parse_graphics_mode modes with hsdef
              have key : (∀ p ∈ merge_entry acc offset s, p.1 ≤ offset) ∧
                  List.Pairwise (fun a b => b < a) ((merge_entry acc offset s).map Prod.fst) := by
                match acc with
                | [] =>
                    constructor
                    · intro p hp
                      simp only [merge_entry, List.mem_singleton] at hp
                      simp [hp]
                    · simp [merge_entry]
                | (last_offset, last) :: rest =>
                    by_cases heq : last_offset = offset
                    · constructor
                      · intro p hp
                        simp only [merge_entry, if_pos heq] at hp
                        rcases List.mem_cons.1 hp with h | h
                        · simp [h, heq]
                        · exact hb p (List.mem_cons_of_mem _ h)
                      · simp only [merge_entry, if_pos heq]
                        simpa using hs
                    · have hlt : last_offset < offset :=
                        Nat.lt_of_le_of_ne (hb _ (List.mem_cons_self _ _)) heq
                      constructor
                      · intro p hp
                        simp only [merge_entry, if_neg heq] at hp
                        rcases List.mem_cons.1 hp with h | h
                        · simp [h]
                        · exact hb p h
                      · simp only [merge_entry, if_neg heq, List.map_cons]
                        refine List.Pairwise.cons ?_ hs
                        intro x hx
                        simp only [List.map_cons, List.mem_cons] at hx
                        rcases hx with h | h
                        · omega
                        · have := (List.pairwise_cons.1 hs).1 x h
                          omega
              have h := ih (merge_entry acc offset s) offset key.1 key.2
              refine ⟨h.1, ?_⟩
              intro p hp
              have := h.2 p hp
              simpa [scan_loop, strip_ansi] using this
          | other =>
              have h := ih acc offset hb hs
              refine ⟨h.1, ?_⟩
              intro p hp
              have := h.2 p hp
              simpa [scan_loop, strip_ansi] using this

/-- The parse result's offsets are strictly increasing. -/
lemma parse_offsets_sorted (src : List AnsiElement) :
    List.Pairwise (· < ·) ((parse_ansi_styled_str src).map Prod.fst) := by
  have h := (scan_loop_invariant src [] 0 (by simp) (by simp)).1
  unfold parse_ansi_styled_str
  rw [List.map_reverse]
  exact List.pairwise_reverse.2 h

/-- Every offset in the parse result is bounded by the plain-text
length of the source stream. -/
lemma parse_offsets_bounded (src : List AnsiElement) :
    ∀ p ∈ parse_ansi_styled_str src, p.1 ≤ (strip_ansi src).length := by
  intro p hp
  have h := (scan_loop_invariant src [] 0 (by simp) (by simp)).2
  have hp' : p ∈ scan_loop src [] 0 := by
    simpa [parse_ansi_styled_str] using hp
  simpa using h p hp'

/-- C2: For every lexed input stream, the parse result's offsets are
strictly increasing, so each offset appears in at most one entry; and
the merge step, given a result whose last entry sits at the current
offset, unions the new overrides into that entry instead of appending
a second one. -/
theorem parse_offsets_strict_mono (src : List AnsiElement) :
    List.Pairwise (· < ·) ((parse_ansi_styled_str src).map Prod.fst) ∧
    ((parse_ansi_styled_str src).map Prod.fst).Nodup ∧
    (∀ (rest : List (Nat × Finset TextFormattingOverride)) (last_offset : Nat)
        (last modes : Finset TextFormattingOverride),
      merge_entry ((last_offset, last) :: rest) last_offset modes
        = (last_offset, last ∪ modes) :: rest) := by
  refine ⟨parse_offsets_sorted src, ?_, ?_⟩
  · exact (parse_offsets_sorted src).imp Nat.ne_of_lt
  · intro rest last_offset last modes
    simp [merge_entry]

/-- Two consecutive slices of the same list tile: the slice from `l` to
`o` followed by the slice from `o` to `M` is the slice from `l` to
`M`. -/
lemma slices_tile (p : List Char) (l o M : Nat) (h1 : l ≤ o) (h2 : o ≤ M) :
    (p.drop l).take (o - l) ++ (p.drop o).take (M - o) = (p.drop l).take (M - l) := by
  have hd : (p.drop l).drop (o - l) = p.drop o := by
    rw [List.drop_drop]
    congr 1
    omega
  rw [← hd, ← List.take_add]
  congr 1
  omega

/-- A `≤`-chain starting at `a` ends at a value at least `a`. -/
lemma chain_le_getLastD : ∀ (l : List Nat) (a : Nat),
    List.Chain (· ≤ ·) a l → a ≤ l.getLastD a := by
  intro l
  induction l with
  | nil => intro a _; simp
  | cons b l ih =>
      intro a h
      rw [List.chain_cons] at h
      rw [List.getLastD_cons]
      exact Nat.le_trans h.1 (ih b h.2)

/-- The texts of the runs emitted by the compositor loop concatenate to
the slice of the plain text from the starting offset to the last entry
offset, provided the offsets form a nondecreasing chain. -/
lemma composite_loop_join (config : ConsoleConfiguration) (plain : List Char) :
    ∀ (es : List (Nat × List TextFormattingOverride)) (style : StyleState) (last_offset : Nat),
      List.Chain (· ≤ ·) last_offset (es.map Prod.fst) →
      ((composite_loop config plain es style last_offset).map StyledRun.text).flatten
        = (plain.drop last_offset).take ((es.map Prod.fst).getLastD last_offset - last_offset) := by
  intro es
  induction es with
  | nil =>
      intro style last_offset _
      simp [composite_loop]
  | cons e rest ih =>
      obtain ⟨offset, order⟩ := e
      intro style last_offset hchain
      simp only [List.map_cons, List.chain_cons] at hchain
      obtain ⟨h1, hc⟩ := hchain
      have hM : offset ≤ (rest.map Prod.fst).getLastD offset := chain_le_getLastD _ _ hc
      have htail := ih (apply_entry config style order) offset hc
      simp only [List.map_cons, List.getLastD_cons]
      by_cases hE : ((plain.drop last_offset).take (offset - last_offset)).isEmpty
      · have hnil : (plain.drop last_offset).take (offset - last_offset) = [] :=
          List.isEmpty_iff.1 hE
        simp only [composite_loop, hE, if_true, htail]
        rw [← slices_tile plain last_offset offset _ h1 hM, hnil, List.nil_append]
      · have hne : ((plain.drop last_offset).take (offset - last_offset)).isEmpty = false := by
          simpa using hE
        simp only [composite_loop, hne, Bool.false_eq_true, if_false, List.map_cons,
          List.flatten_cons, htail]
        exact slices_tile plain last_offset offset _ h1 hM

/-- Strictly increasing offsets that are bounded above extend to a
nondecreasing chain ending at the bound. -/
lemma chain_of_sorted_bounded :
    ∀ (l : List Nat) (a n : Nat), List.Pairwise (· < ·) l →
      (∀ x ∈ l, a ≤ x) → (∀ x ∈ l, x ≤ n) → a ≤ n →
      List.Chain (· ≤ ·) a (l ++ [n]) := by
  intro l
  induction l with
  | nil =>
      intro a n _ _ _ han
      exact List.Chain.cons han List.Chain.nil
  | cons x l ih =>
      intro a n hp ha hn han
      rw [List.pairwise_cons] at hp
      refine List.Chain.cons (ha x (List.mem_cons_self _ _)) ?_
      exact ih x n hp.2 (fun y hy => Nat.le_of_lt (hp.1 y hy))
        (fun y hy => hn y (List.mem_cons_of_mem _ hy)) (hn x (List.mem_cons_self _ _))

/-- C1: For every lexed source stream and every enumeration of the
scanner's override entries (any per-entry `HashSet` iteration order,
offsets as produced by the scanner), concatenating the text slices of
the compositor's `StyledRun` output reconstructs the stripped plain
text exactly — full coverage, no gaps, no overlaps. -/
theorem styled_runs_cover_text (config : ConsoleConfiguration) (src : List AnsiElement)
    (entries : List (Nat × List TextFormattingOverride))
    (hoff : entries.map Prod.fst = (parse_ansi_styled_str src).map Prod.fst) :
    ((style_ansi_text config (strip_ansi src) entries).map StyledRun.text).flatten
      = strip_ansi src := by
  set plain := strip_ansi src with hplain
  have hsorted : List.Pairwise (· < ·) (entries.map Prod.fst) := by
    rw [hoff]; exact parse_offsets_sorted src
  have hbound : ∀ x ∈ entries.map Prod.fst, x ≤ plain.length := by
    intro x hx
    rw [hoff] at hx
    obtain ⟨p, hp, hpx⟩ := List.mem_map.1 hx
    exact hpx ▸ parse_offsets_bounded src p hp
  have hchain : List.Chain (· ≤ ·) 0 (entries.map Prod.fst ++ [plain.length]) :=
    chain_of_sorted_bounded _ 0 plain.length hsorted (fun x _ => Nat.zero_le x) hbound
      (Nat.zero_le _)
  have hjoin := composite_loop_join config plain (entries ++ [(plain.length, [])])
    (default_style config) 0 (by simpa using hchain)
  unfold style_ansi_text
  rw [hjoin]
  simp [List.getLastD_concat]

/-- Closed instance of `styled_runs_cover_text` on the stream
`"ab" · ESC[1m · "c"` with the scanner's own offsets. -/
theorem styled_runs_cover_text_witness :
    ((style_ansi_text sample_config
        (strip_ansi [.TextBlock ['a', 'b'], .Escape (.SetGraphicsMode [1]), .TextBlock ['c']])
        [(2, [.Bold])]).map StyledRun.text).flatten
      = strip_ansi [.TextBlock ['a', 'b'], .Escape (.SetGraphicsMode [1]), .TextBlock ['c']] :=
  styled_runs_cover_text sample_config
    [.TextBlock ['a', 'b'], .Escape (.SetGraphicsMode [1]), .TextBlock ['c']]
    [(2, [.Bold])] (by decide)

/-- C4: When an entry's override set contains `Reset`, the per-entry
update resets the current style to the base style before applying the
entry's overrides: the result equals folding the overrides over the
base style, it is independent of the incoming style (in particular of
any number of previously applied overrides), and an entry carrying only
`Reset` returns exactly the base style. -/
theorem reset_restores_base_style (config : ConsoleConfiguration)
    (style1 style2 : StyleState) (order : List TextFormattingOverride)
    (h : TextFormattingOverride.Reset ∈ order) :
    apply_entry config style1 order
        = order.foldl (apply_override config) (default_style config) ∧
    apply_entry config style1 order = apply_entry config style2 order ∧
    apply_entry config style1 [TextFormattingOverride.Reset] = default_style config := by
  unfold apply_entry
  rw [if_pos h]
  exact ⟨rfl, by rw [if_pos h], rfl⟩

/-- Closed instance of `reset_restores_base_style`: an entry
`[Bold, Reset]` reached from a non-default style. -/
theorem reset_restores_base_style_witness :
    apply_entry sample_config
        ⟨16, true, none, none, Colour.from_rgb 255 0 0, none⟩ [.Bold, .Reset]
      = ([TextFormattingOverride.Bold, .Reset]).foldl (apply_override sample_config)
          (default_style sample_config) :=
  (reset_restores_base_style sample_config
    ⟨16, true, none, none, Colour.from_rgb 255 0 0, none⟩
    (default_style sample_config) [.Bold, .Reset] (by decide)).1

/-- C5 counterexample: two enumerations of the same override
`HashSet` — two different `Foreground` values, and `Bold` with `Dim` —
drive the compositor to different `StyledRun` sequences, so the output
is not a function of the entry sets alone: on identical inputs, two
invocations differing only in `HashSet` iteration order disagree. -/
theorem compositor_order_dependent :
    ([TextFormattingOverride.Foreground (Colour.from_rgb 255 0 0),
        .Foreground (Colour.from_rgb 0 255 0)].toFinset
      = [TextFormattingOverride.Foreground (Colour.from_rgb 0 255 0),
          .Foreground (Colour.from_rgb 255 0 0)].toFinset) ∧
    style_ansi_text sample_config ['a']
        [(0, [.Foreground (Colour.from_rgb 255 0 0), .Foreground (Colour.from_rgb 0 255 0)])]
      ≠ style_ansi_text sample_config ['a']
        [(0, [.Foreground (Colour.from_rgb 0 255 0), .Foreground (Colour.from_rgb 255 0 0)])] ∧
    ([TextFormattingOverride.Bold, .Dim].toFinset
      = [TextFormattingOverride.Dim, .Bold].toFinset) ∧
    style_ansi_text sample_config ['a'] [(0, [.Bold, .Dim])]
      ≠ style_ansi_text sample_config ['a'] [(0, [.Dim, .Bold])] := by
  refine ⟨by decide, by decide, by decide, by decide⟩

/-- Two overrides may be applied in either order without changing the
resulting style unless they write the same style field with different
values: two distinct `Foreground` colours, two distinct `Background`
colours, or `Bold` against `Dim` (both write the font size). -/
def compatible : TextFormattingOverride → TextFormattingOverride → Bool
  | .Foreground c1, .Foreground c2 => c1 = c2
  | .Background c1, .Background c2 => c1 = c2
  | .Bold, .Dim => false
  | .Dim, .Bold => false
  | _, _ => true

/-- Compatible overrides commute through `apply_override`. -/
lemma apply_override_comm (config : ConsoleConfiguration)
    (a b : TextFormattingOverride) (h : compatible a b = true) (s : StyleState) :
    apply_override config (apply_override config s a) b
      = apply_override config (apply_override config s b) a := by
  cases a <;> cases b <;> simp_all [compatible, apply_override]

/-- Permuting a conflict-free enumeration of an entry's override set
does not change the per-entry style update. -/
lemma apply_entry_perm (config : ConsoleConfiguration) (style : StyleState)
    (l1 l2 : List TextFormattingOverride) (hperm : l1.Perm l2)
    (hok : ∀ a ∈ l1, ∀ b ∈ l1, compatible a b = true) :
    apply_entry config style l1 = apply_entry config style l2 := by
  unfold apply_entry
  by_cases hR : TextFormattingOverride.Reset ∈ l1
  · rw [if_pos hR, if_pos ((hperm.mem_iff).1 hR)]
    exact hperm.foldl_eq'
      (fun x hx y hy z => apply_override_comm config x y (hok x hx y hy) z) _
  · rw [if_neg hR, if_neg (fun h => hR ((hperm.mem_iff).2 h))]
    exact hperm.foldl_eq'
      (fun x hx y hy z => apply_override_comm config x y (hok x hx y hy) z) _

/-- The relation between two entry lists that enumerate the same parse
result: equal offsets, per-entry enumerations that are permutations of
each other, and no conflicting pair inside an entry. -/
def entries_equiv (e f : Nat × List TextFormattingOverride) : Prop :=
  e.1 = f.1 ∧ e.2.Perm f.2 ∧ ∀ a ∈ e.2, ∀ b ∈ e.2, compatible a b = true

/-- The compositor loop is invariant under `entries_equiv`. -/
lemma composite_loop_congr (config : ConsoleConfiguration) (plain : List Char) :
    ∀ (E1 E2 : List (Nat × List TextFormattingOverride)),
      List.Forall₂ entries_equiv E1 E2 →
      ∀ (style : StyleState) (last_offset : Nat),
        composite_loop config plain E1 style last_offset
          = composite_loop config plain E2 style last_offset := by
  intro E1 E2 h
  induction h with
  | nil => intro style last_offset; rfl
  | @cons e f E1 E2 hef _ ih =>
      intro style last_offset
      obtain ⟨offset1, order1⟩ := e
      obtain ⟨offset2, order2⟩ := f
      obtain ⟨hoff, hperm, hok⟩ := hef
      simp only at hoff
      subst hoff
      have hstyle : apply_entry config style order1 = apply_entry config style order2 :=
        apply_entry_perm config style order1 order2 hperm hok
      simp only [composite_loop, hstyle, ih]

/-- C5 (amended): The compositor is deterministic once the per-entry
application order is fixed, and its output is independent of that order
whenever no entry's set contains two overrides writing the same style
field differently (two distinct `Foreground` values, two distinct
`Background` values, or `Bold` together with `Dim`): any two
enumerations of such a parse result yield identical `StyledRun`
sequences. -/
theorem compositor_deterministic_conflict_free (config : ConsoleConfiguration)
    (plain : List Char) (E1 E2 : List (Nat × List TextFormattingOverride))
    (h : List.Forall₂ entries_equiv E1 E2) :
    style_ansi_text config plain E1 = style_ansi_text config plain E2 := by
  unfold style_ansi_text
  refine composite_loop_congr config plain _ _ ?_ _ _
  exact List.rel_append h
    (List.Forall₂.cons ⟨rfl, List.Perm.refl _, by simp⟩ List.Forall₂.nil)

/-- Closed instance of `compositor_deterministic_conflict_free`: the
two enumerations of the conflict-free set `{Bold, Foreground red}`. -/
theorem compositor_deterministic_conflict_free_witness :
    style_ansi_text sample_config ['a', 'b']
        [(0, [.Bold, .Foreground (Colour.from_rgb 222 56 43)])]
      = style_ansi_text sample_config ['a', 'b']
        [(0, [.Foreground (Colour.from_rgb 222 56 43), .Bold])] :=
  compositor_deterministic_conflict_free sample_config ['a', 'b'] _ _
    (List.Forall₂.cons
      ⟨rfl, List.Perm.swap _ _ _, by decide⟩ List.Forall₂.nil)

/-- C6 counterexample: for the empty plain text with an empty override
list the compositor emits zero runs, not the single (empty-text) run
the claim's universal quantification over every plain text requires. -/
theorem empty_overrides_empty_text_no_run :
    (style_ansi_text sample_config [] []).length ≠ 1 ∧
    style_ansi_text sample_config [] [] = [] := by
  refine ⟨by decide, by decide⟩

/-- C6 (amended): For every non-empty plain text and an empty override
list, the compositor returns exactly one `StyledRun` spanning all of
the text at the base style (for empty plain text it returns no
runs). -/
theorem empty_overrides_single_run (config : ConsoleConfiguration)
    (plain : List Char) (h : plain ≠ []) :
    style_ansi_text config plain [] = [⟨plain, default_style config⟩] := by
  have hne : plain.isEmpty = false := by
    cases plain with
    | nil => exact absurd rfl h
    | cons c cs => rfl
  unfold style_ansi_text
  simp only [List.nil_append, composite_loop, Nat.sub_zero, List.drop_zero,
    List.take_length, hne, Bool.false_eq_true, if_false]

/-- Closed instance of `empty_overrides_single_run` at a one-character
text. -/
theorem empty_overrides_single_run_witness :
    style_ansi_text sample_config ['a'] []
      = [⟨['a'], default_style sample_config⟩] :=
  empty_overrides_single_run sample_config ['a'] (by decide)

/-- Runs produced by the compositor loop always carry non-empty text:
the emission is guarded by `!text.is_empty()`. -/
lemma composite_loop_text_ne_nil (config : ConsoleConfiguration) (plain : List Char) :
    ∀ (es : List (Nat × List TextFormattingOverride)) (style : StyleState)
      (last_offset : Nat) (r : StyledRun),
      r ∈ composite_loop config plain es style last_offset → r.text ≠ [] := by
  intro es
  induction es with
  | nil =>
      intro style last_offset r hr
      simp [composite_loop] at hr
  | cons e rest ih =>
      obtain ⟨offset, order⟩ := e
      intro style last_offset r hr
      by_cases hE : ((plain.drop last_offset).take (offset - last_offset)).isEmpty
      · rw [composite_loop] at hr
        simp only [hE, if_true] at hr
        exact ih _ _ r hr
      · have hne : ((plain.drop last_offset).take (offset - last_offset)).isEmpty = false := by
          simpa using hE
        rw [composite_loop] at hr
        simp only [hne, Bool.false_eq_true, if_false, List.mem_cons] at hr
        rcases hr with h | h
        · subst h
          intro hnil
          have hnil' : (plain.drop last_offset).take (offset - last_offset) = [] := hnil
          rw [hnil'] at hne
          simp at hne
        · exact ih _ _ r h

/-- On empty plain text every slice is empty, so the loop emits no
runs at all. -/
lemma composite_loop_nil_plain (config : ConsoleConfiguration) :
    ∀ (es : List (Nat × List TextFormattingOverride)) (style : StyleState)
      (last_offset : Nat),
      composite_loop config ([] : List Char) es style last_offset = [] := by
  intro es
  induction es with
  | nil => intro style last_offset; rfl
  | cons e rest ih =>
      obtain ⟨offset, order⟩ := e
      intro style last_offset
      rw [composite_loop]
      simp only [List.drop_nil, List.take_nil, List.isEmpty_nil, if_true]
      exact ih _ _

/-- C10: Every `StyledRun` the compositor emits has non-empty text; an
entry whose offset equals the previous offset (the slice is empty)
contributes no run, only its style update; and on the empty plain text
the compositor emits no runs at all. -/
theorem runs_nonempty (config : ConsoleConfiguration) (plain : List Char)
    (entries : List (Nat × List TextFormattingOverride)) :
    (∀ r ∈ style_ansi_text config plain entries, r.text ≠ []) ∧
    style_ansi_text config [] entries = [] ∧
    (∀ (offset : Nat) (order : List TextFormattingOverride)
        (rest : List (Nat × List TextFormattingOverride)) (style : StyleState),
      composite_loop config plain ((offset, order) :: rest) style offset
        = composite_loop config plain rest (apply_entry config style order) offset) := by
  refine ⟨?_, ?_, ?_⟩
  · intro r hr
    exact composite_loop_text_ne_nil config plain _ _ _ r hr
  · unfold style_ansi_text
    exact composite_loop_nil_plain config _ _ _
  · intro offset order rest style
    rw [composite_loop]
    simp

/-- Closed instance of `runs_nonempty`: the single run emitted for the
text `"a"` has non-empty text. -/
theorem runs_nonempty_witness :
    (⟨['a'], default_style sample_config⟩ : StyledRun).text ≠ [] :=
  (runs_nonempty sample_config ['a'] []).1 ⟨['a'], default_style sample_config⟩ (by decide)

/-- A non-empty current token guarantees a non-empty token list. -/
lemma split_ws_go_ne_nil :
    ∀ (s : List Char) (cur : List Char), cur ≠ [] → split_ws_go s cur ≠ [] := by
  intro s
  induction s with
  | nil =>
      intro cur hc
      simp [split_ws_go, hc]
  | cons c cs ih =>
      intro cur hc
      by_cases hw : isWs c
      · simp only [split_ws_go, hw, if_true, if_neg hc]
        simp
      · simp only [split_ws_go, hw, Bool.false_eq_true, if_false]
        exact ih (c :: cur) (by simp)

/-- The tokenizer returns no tokens exactly when every character of the
line is whitespace (there is no non-whitespace token to emit). -/
lemma split_whitespace_eq_nil_iff :
    ∀ s : List Char, split_whitespace s = [] ↔ ∀ c ∈ s, isWs c = true := by
  intro s
  unfold split_whitespace
  induction s with
  | nil => simp [split_ws_go]
  | cons c cs ih =>
      by_cases hw : isWs c
      · simp only [split_ws_go, hw, if_true, List.mem_cons]
        constructor
        · intro h x hx
          rcases hx with h1 | h2
          · subst h1; exact hw
          · exact (ih.1 h) x h2
        · intro h
          exact ih.2 (fun x hx => h x (Or.inr hx))
      · simp only [split_ws_go, hw, Bool.false_eq_true, if_false]
        constructor
        · intro h
          exact absurd h (split_ws_go_ne_nil cs [c] (by simp))
        · intro h
          have := h c (List.mem_cons_self _ _)
          rw [this] at hw
          exact absurd rfl hw

/-- C8: The command tokenizer forwards the first whitespace-delimited
token as the command name and the remaining tokens, in order, as the
arguments; a line with no non-whitespace token (equivalently: whose
tokenization is empty) produces no command at all, hence no
notification (`send_batch` of `None` sends nothing). -/
theorem str_to_command_whitespace_tokens (s : List Char) :
    (split_whitespace s = [] ↔ ∀ c ∈ s, isWs c = true) ∧
    (split_whitespace s = [] → str_to_command s = none) ∧
    (∀ (t : List Char) (ts : List (List Char)),
      split_whitespace s = t :: ts → str_to_command s = some ⟨t, ts⟩) := by
  refine ⟨split_whitespace_eq_nil_iff s, ?_, ?_⟩
  · intro h
    unfold str_to_command
    rw [h]
  · intro t ts h
    unfold str_to_command
    rw [h]

/-- Closed instance of `str_to_command_whitespace_tokens` at the line
`" log a  b "`. -/
theorem str_to_command_whitespace_tokens_witness :
    str_to_command [' ', 'l', 'o', 'g', ' ', 'a', ' ', ' ', 'b', ' ']
      = some ⟨['l', 'o', 'g'], [['a'], ['b']]⟩ :=
  (str_to_command_whitespace_tokens [' ', 'l', 'o', 'g', ' ', 'a', ' ', ' ', 'b', ' ']).2.2
    ['l', 'o', 'g'] [['a'], ['b']] (by decide)
